import Mathlib

/-!
Verification of the wxauto4 core against its specification.

The Python sources are shallowly embedded: pure parsing helpers become Lean
functions on `List Char` / `String`, the locking code becomes explicit
transition systems, and UI-touching flows become pure functions that also
return the list of UI effects they would issue.
-/

set_option maxHeartbeats 1000000

namespace Wxauto4

/-! ## Generic helpers -/

/-- First `some` produced by `f` over a list, in order (models Python's
first-match-wins scanning and regex backtracking alternative order). -/
def firstSome {α β : Type} : List α → (α → Option β) → Option β
  | [], _ => none
  | a :: l, f =>
    match f a with
    | some b => some b
    | none => firstSome l f

theorem firstSome_nil {α β : Type} (f : α → Option β) : firstSome [] f = none := rfl

theorem firstSome_cons_some {α β : Type} (f : α → Option β) (a : α) (l : List α)
    (b : β) (h : f a = some b) : firstSome (a :: l) f = some b := by
  simp [firstSome, h]

theorem firstSome_cons_none {α β : Type} (f : α → Option β) (a : α) (l : List α)
    (h : f a = none) : firstSome (a :: l) f = firstSome l f := by
  simp [firstSome, h]

theorem firstSome_append_none {α β : Type} (f : α → Option β) (l₁ l₂ : List α)
    (h : ∀ a ∈ l₁, f a = none) :
    firstSome (l₁ ++ l₂) f = firstSome l₂ f := by
  induction l₁ with
  | nil => rfl
  | cons a l ih =>
    have ha : f a = none := h a (by simp)
    simp only [List.cons_append, firstSome, ha]
    exact ih (fun x hx => h x (by simp [hx]))

theorem firstSome_eq_none_iff {α β : Type} (f : α → Option β) (l : List α) :
    firstSome l f = none ↔ ∀ a ∈ l, f a = none := by
  induction l with
  | nil => simp [firstSome]
  | cons a l ih =>
    constructor
    · intro h x hx
      rcases List.mem_cons.mp hx with h0 | h0
      · subst h0
        cases hfa : f x with
        | none => rfl
        | some b => rw [firstSome_cons_some f x l b hfa] at h; exact absurd h (by simp)
      · cases hfa : f a with
        | none => exact (ih.mp (by rwa [firstSome_cons_none f a l hfa] at h)) x h0
        | some b => rw [firstSome_cons_some f a l b hfa] at h; exact absurd h (by simp)
    · intro h
      rw [firstSome_cons_none f a l (h a (by simp))]
      exact ih.mpr (fun x hx => h x (by simp [hx]))

/-- Python `\s` on the characters relevant here (ASCII whitespace set). -/
def pySpace (c : Char) : Bool :=
  c = ' ' || c = '\t' || c = '\n' || c = '\r' || c = '\x0b' || c = '\x0c'

/-- Drop leading Python whitespace (`str.lstrip()`). -/
def dropLeadingWs (l : List Char) : List Char := l.dropWhile pySpace

/-- Drop trailing Python whitespace (`str.rstrip()`). -/
def dropTrailingWs (l : List Char) : List Char := (l.reverse.dropWhile pySpace).reverse

/-- Python `str.strip()`. -/
def pyStrip (l : List Char) : List Char := dropTrailingWs (dropLeadingWs l)

theorem dropWhile_eq_self_of_all {p : Char → Bool} {l : List Char}
    (h : ∀ c ∈ l, p c = false) : l.dropWhile p = l := by
  cases l with
  | nil => rfl
  | cons c t => simp [List.dropWhile, h c (by simp)]

theorem dropTrailingWs_eq_self_of_all {l : List Char}
    (h : ∀ c ∈ l, pySpace c = false) : dropTrailingWs l = l := by
  unfold dropTrailingWs
  rw [dropWhile_eq_self_of_all (fun c hc => h c (List.mem_reverse.mp hc)), List.reverse_reverse]

theorem pyStrip_eq_self_of_all {l : List Char}
    (h : ∀ c ∈ l, pySpace c = false) : pyStrip l = l := by
  unfold pyStrip dropLeadingWs
  rw [dropWhile_eq_self_of_all h, dropTrailingWs_eq_self_of_all h]

theorem pyStrip_sublist (l : List Char) : List.Sublist (pyStrip l) l := by
  have h1 : List.Sublist (dropLeadingWs l) l := List.dropWhile_sublist pySpace
  have h2 : List.Sublist (dropTrailingWs (dropLeadingWs l)) (dropLeadingWs l) := by
    unfold dropTrailingWs
    have h3 : List.Sublist ((dropLeadingWs l).reverse.dropWhile pySpace)
        (dropLeadingWs l).reverse := List.dropWhile_sublist pySpace
    simpa using h3.reverse
  exact h2.trans h1

theorem exists_concat {l : List Char} (h : l ≠ []) : ∃ l2 x, l = l2 ++ [x] := by
  rcases List.eq_nil_or_concat l with h0 | ⟨l2, x, hl⟩
  · exact absurd h0 h
  · exact ⟨l2, x, by simpa [List.concat_eq_append] using hl⟩

theorem dropWhile_head_false {p : Char → Bool} {c : Char} {t : List Char}
    (h : (c :: t).dropWhile p = c :: t) : p c = false := by
  by_contra hb
  have hc : p c = true := by revert hb; cases p c <;> simp
  rw [List.dropWhile_cons_of_pos hc] at h
  have hlen := congrArg List.length h
  have hle : (t.dropWhile p).length ≤ t.length := (List.dropWhile_sublist p).length_le
  simp at hlen
  omega

theorem dropLeadingWs_cons_false {c : Char} {t : List Char} (h : pySpace c = false) :
    dropLeadingWs (c :: t) = c :: t := by
  simp [dropLeadingWs, List.dropWhile_cons, h]

theorem dropTrailingWs_eq_self_of_last {l : List Char} (hne : l ≠ [])
    (h : pySpace (l.getLast hne) = false) : dropTrailingWs l = l := by
  obtain ⟨l2, x, hl⟩ := exists_concat hne
  subst hl
  rw [List.getLast_concat] at h
  unfold dropTrailingWs
  rw [List.reverse_concat, List.dropWhile_cons_of_neg (by simp [h]), ← List.reverse_concat,
    List.reverse_reverse]

theorem pyStrip_eq_self_of_ends {l : List Char} (hne : l ≠ [])
    (hh : pySpace (l.head hne) = false) (hl : pySpace (l.getLast hne) = false) :
    pyStrip l = l := by
  cases l with
  | nil => exact absurd rfl hne
  | cons c t =>
    unfold pyStrip
    rw [show dropLeadingWs (c :: t) = c :: t from dropLeadingWs_cons_false (by simpa using hh)]
    exact dropTrailingWs_eq_self_of_last hne hl

theorem pyStrip_parts {C : List Char} (h : pyStrip C = C) :
    dropLeadingWs C = C ∧ dropTrailingWs C = C := by
  have hsub1 : List.Sublist (dropLeadingWs C) C := List.dropWhile_sublist pySpace
  have hsub2 : List.Sublist (dropTrailingWs (dropLeadingWs C)) (dropLeadingWs C) := by
    unfold dropTrailingWs
    have h3 : List.Sublist ((dropLeadingWs C).reverse.dropWhile pySpace)
        (dropLeadingWs C).reverse := List.dropWhile_sublist pySpace
    simpa using h3.reverse
  have hlen1 : (dropLeadingWs C).length ≤ C.length := hsub1.length_le
  have hlen2 : (dropTrailingWs (dropLeadingWs C)).length ≤ (dropLeadingWs C).length :=
    hsub2.length_le
  have hC : (pyStrip C).length = C.length := by rw [h]
  unfold pyStrip at hC
  have e1 : (dropLeadingWs C).length = C.length := by omega
  have h1 : dropLeadingWs C = C := hsub1.eq_of_length e1
  refine ⟨h1, ?_⟩
  have h2 : pyStrip C = dropTrailingWs C := by unfold pyStrip; rw [h1]
  rw [← h2, h]

theorem last_not_ws_of_dropTrailing {C : List Char} (hne : C ≠ [])
    (h : dropTrailingWs C = C) : pySpace (C.getLast hne) = false := by
  obtain ⟨l2, x, hl⟩ := exists_concat hne
  subst hl
  rw [List.getLast_concat]
  unfold dropTrailingWs at h
  have hrev : ((l2 ++ [x]).reverse).dropWhile pySpace = (l2 ++ [x]).reverse := by
    have := congrArg List.reverse h
    simpa using this
  rw [List.reverse_concat] at hrev
  exact dropWhile_head_false hrev

/-! ## `MomentComment.from_text` (src/wxauto4/moment.py)

The Python code matches the stripped input against the regex
`^(?P<author>[^：:]+?)\s*(?:回复\s*(?P<reply>[^：:]+?)\s*)?[：:](?P<content>.*)$`.
Because neither `author` nor `reply` may contain a colon and `\s*` never
consumes one, the single `[：:]` of the pattern always consumes the *first*
colon of the input; the embedding below factors the match accordingly and
reproduces the engine's backtracking order (lazy `author`/`reply`, greedy
`\s*`, the optional group tried present-first) on the colon-free prefix. -/

def isColon (c : Char) : Bool := c = '：' || c = ':'

/-- Split at the first colon: `some (before, after)`, or `none` if no colon. -/
def splitFirstColon : List Char → Option (List Char × List Char)
  | [] => none
  | c :: cs =>
    if isColon c then some ([], cs)
    else (splitFirstColon cs).map (fun p => (c :: p.1, p.2))

/-- Length of the leading whitespace run (how much a greedy `\s*` can take). -/
def wsRunLen (l : List Char) : Nat := (l.takeWhile pySpace).length

/-- `[n, n-1, ..., 0]`: the order in which a greedy quantifier backtracks. -/
def descRange (n : Nat) : List Nat := (List.range (n + 1)).reverse

/-- The optional group `回复\s*(?P<reply>[^：:]+?)\s*` matched against exactly
`r` (the group must end right where the colon sits).  The inner `\s*` is
greedy (`m` descending), `reply` is lazy: the shortest non-empty prefix whose
remainder is all whitespace, i.e. `take (max 1 |rstrip|)`. -/
def groupReply (r : List Char) : Option (List Char) :=
  match r with
  | c1 :: c2 :: after =>
    if c1 = '回' then
      if c2 = '复' then
        firstSome (descRange (wsRunLen after)) (fun m =>
          let after2 := after.drop m
          if after2.isEmpty then none
          else some (after2.take (max 1 (dropTrailingWs after2).length)))
      else none
    else none
  | _ => none

/-- Match `(?P<author>[^：:]+?)\s*(?:回复\s*(?P<reply>[^：:]+?)\s*)?` against
exactly the colon-free prefix `P`: `author` is lazy (`k` ascending from 1),
the following `\s*` greedy (`j` descending), and the optional group is tried
present before absent. -/
def prefixDecomp (P : List Char) : Option (List Char × Option (List Char)) :=
  firstSome (List.range' 1 P.length) (fun k =>
    let author := P.take k
    let r := P.drop k
    firstSome (descRange (wsRunLen r)) (fun j =>
      let r2 := r.drop j
      match groupReply r2 with
      | some reply => some (author, some reply)
      | none => if r2.isEmpty then some (author, none) else none))

/-- The `(?P<content>.*)$` tail: `.` does not cross `\n` and `$` also matches
just before a single final newline, so the capture succeeds iff `C` contains
no `\n` apart from an optional final one (which is not captured). -/
def contentCapture (C : List Char) : Option (List Char) :=
  match C.reverse with
  | d :: ds =>
    if d = '\n' then (if ds.contains '\n' then none else some ds.reverse)
    else if C.contains '\n' then none else some C
  | [] => some C

/-- Full-regex match on the stripped text: `some (author, reply?, content)`. -/
def fromTextCore (t : List Char) : Option (List Char × Option (List Char) × List Char) :=
  match splitFirstColon t with
  | none => none
  | some (P, C) =>
    if P.isEmpty then none
    else
      match contentCapture C with
      | none => none
      | some content => (prefixDecomp P).map (fun ar => (ar.1, ar.2, content))

structure MomentComment where
  author : String
  content : String
  reply_to : Option String := none
  raw : String := ""
deriving Repr, DecidableEq

/-- `MomentComment.from_text` from src/wxauto4/moment.py: strip the input,
run the regex; on a match the captured groups are stripped (`reply` only when
present), otherwise author is empty and content is the whole stripped text. -/
def MomentComment.from_text (text : String) : MomentComment :=
  let t := pyStrip text.toList
  match fromTextCore t with
  | some (a, r, c) =>
    { author := String.mk (pyStrip a)
      content := String.mk (pyStrip c)
      reply_to := r.map (fun rl => String.mk (pyStrip rl))
      raw := String.mk t }
  | none =>
    { author := "", content := String.mk t, reply_to := none, raw := String.mk t }


/-! ### Lemmas about the regex embedding -/

theorem firstSome_singleton {α β : Type} (f : α → Option β) (a : α) :
    firstSome [a] f = f a := by
  cases h : f a <;> simp [firstSome, h]

theorem firstSome_skip {α β : Type} (f : α → Option β) (l₁ l₂ : List α)
    (h : ∀ a ∈ l₁, f a = none) (r : Option β) (h2 : firstSome l₂ f = r) :
    firstSome (l₁ ++ l₂) f = r := by
  rw [firstSome_append_none f l₁ l₂ h, h2]

theorem wsRunLen_nil : wsRunLen [] = 0 := rfl

theorem wsRunLen_cons_false {c : Char} {t : List Char} (h : pySpace c = false) :
    wsRunLen (c :: t) = 0 := by
  simp [wsRunLen, List.takeWhile_cons, h]

theorem groupReply_head_ne {c : Char} {rest : List Char} (h : ¬c = '回') :
    groupReply (c :: rest) = none := by
  cases rest with
  | nil => rfl
  | cons d t => simp [groupReply, h]

theorem prefixDecomp_inner_fail (P : List Char) (k : Nat) (c : Char) (rest : List Char)
    (hdrop : P.drop k = c :: rest) (hc1 : pySpace c = false) (hc2 : ¬c = '回') :
    firstSome (descRange (wsRunLen (P.drop k)))
      (fun j =>
        match groupReply ((P.drop k).drop j) with
        | some reply => some (P.take k, some reply)
        | none => if ((P.drop k).drop j).isEmpty then some (P.take k, none) else none) = none := by
  rw [hdrop, wsRunLen_cons_false hc1]
  rw [show descRange 0 = [0] from rfl, firstSome_singleton]
  simp only [List.drop_zero, groupReply_head_ne hc2, List.isEmpty_cons]
  rfl

theorem pySpace_colon : pySpace '：' = false := by decide

/-- Inside `prefixDecomp`, the alternative `k = P.length` (author takes the
whole colon-free prefix, optional group absent) always succeeds. -/
theorem prefixDecomp_last (P : List Char) :
    (fun k =>
        firstSome (descRange (wsRunLen (P.drop k)))
          (fun j =>
            match groupReply ((P.drop k).drop j) with
            | some reply => some (P.take k, some reply)
            | none => if ((P.drop k).drop j).isEmpty then some (P.take k, none) else none))
      P.length = some (P, none) := by
  simp only [List.drop_length, List.take_length]
  rw [wsRunLen_nil, show descRange 0 = [0] from rfl, firstSome_singleton]
  rfl

theorem dropTrailingWs_of_all {B : List Char} (h : ∀ c ∈ B, pySpace c = false) :
    dropTrailingWs B = B := dropTrailingWs_eq_self_of_all h

theorem prefixDecomp_shape2 (A : List Char) (hAne : A ≠ [])
    (hA : ∀ c ∈ A, pySpace c = false ∧ ¬c = '回') :
    prefixDecomp A = some (A, none) := by
  obtain ⟨a, ha⟩ : ∃ a, A.length = a + 1 := by
    cases A with
    | nil => exact absurd rfl hAne
    | cons c t => exact ⟨t.length, rfl⟩
  unfold prefixDecomp
  rw [ha, List.range'_1_concat 1 a]
  apply firstSome_skip
  · intro k hk
    have hk2 : k < A.length := by
      rw [List.mem_range'_1] at hk; omega
    have hdrop : A.drop k = A[k] :: A.drop (k + 1) := List.drop_eq_getElem_cons hk2
    have hmem : A[k] ∈ A := List.getElem_mem hk2
    simp only []
    exact prefixDecomp_inner_fail A k A[k] (A.drop (k + 1)) hdrop (hA _ hmem).1 (hA _ hmem).2
  · rw [show (1 + a) = A.length from by omega, firstSome_singleton]
    exact prefixDecomp_last A

theorem prefixDecomp_shape1 (A B : List Char)
    (hAne : A ≠ []) (hA : ∀ c ∈ A, pySpace c = false ∧ ¬c = '回')
    (hBne : B ≠ []) (hB : ∀ c ∈ B, pySpace c = false) :
    prefixDecomp (A ++ ' ' :: '回' :: '复' :: ' ' :: B) = some (A, some B) := by
  obtain ⟨a, ha⟩ : ∃ a, A.length = a + 1 := by
    cases A with
    | nil => exact absurd rfl hAne
    | cons c t => exact ⟨t.length, rfl⟩
  obtain ⟨b0, B', hBc⟩ : ∃ b0 B', B = b0 :: B' := by
    cases B with
    | nil => exact absurd rfl hBne
    | cons c t => exact ⟨c, t, rfl⟩
  have hb0 : pySpace b0 = false := hB b0 (by rw [hBc]; simp)
  have hgr : groupReply ('回' :: '复' :: ' ' :: B) = some B := by
    have hws2 : wsRunLen (' ' :: B) = 1 := by
      rw [hBc]
      simp [wsRunLen, List.takeWhile_cons, show pySpace ' ' = true from rfl, hb0]
    have hBne2 : B.isEmpty = false := by rw [hBc]; rfl
    have hdt : dropTrailingWs B = B := dropTrailingWs_of_all hB
    have hmax : max 1 B.length = B.length := by rw [hBc]; simp
    simp only [groupReply, hws2, show descRange 1 = [1, 0] from rfl, if_true]
    apply firstSome_cons_some
    simp only [List.drop_one, List.tail_cons, hBne2, hdt, hmax, List.take_length,
      Bool.false_eq_true, if_false]
  unfold prefixDecomp
  have hlen : (A ++ ' ' :: '回' :: '复' :: ' ' :: B).length = (4 + B.length + 1) + a := by
    simp [ha]; omega
  rw [hlen, ← List.range'_append 1 a (4 + B.length + 1) 1]
  apply firstSome_skip
  · intro k hk
    have hk2 : k < A.length := by
      rw [List.mem_range'_1] at hk; omega
    have hdrop : (A ++ ' ' :: '回' :: '复' :: ' ' :: B).drop k =
        A[k] :: (A.drop (k + 1) ++ ' ' :: '回' :: '复' :: ' ' :: B) := by
      rw [List.drop_append_of_le_length (le_of_lt hk2), List.drop_eq_getElem_cons hk2]
      rfl
    have hmem : A[k] ∈ A := List.getElem_mem hk2
    simp only []
    exact prefixDecomp_inner_fail _ k A[k] _ hdrop (hA _ hmem).1 (hA _ hmem).2
  · rw [show 1 + 1 * a = 1 + a from by omega,
      show List.range' (1 + a) (4 + B.length + 1) =
        (1 + a) :: List.range' (1 + a + 1) (4 + B.length) from rfl]
    apply firstSome_cons_some
    have h1a : 1 + a = A.length := by omega
    simp only [h1a]
    rw [List.take_left, List.drop_left]
    have hws : wsRunLen (' ' :: '回' :: '复' :: ' ' :: B) = 1 := by
      simp [wsRunLen, List.takeWhile_cons, show pySpace ' ' = true from rfl,
        show pySpace '回' = false from rfl]
    rw [hws, show descRange 1 = [1, 0] from rfl]
    apply firstSome_cons_some
    simp only [List.drop_one, List.tail_cons]
    rw [hgr]

theorem splitFirstColon_of (P C : List Char) (x : Char) (hx : isColon x = true)
    (hP : ∀ c ∈ P, isColon c = false) :
    splitFirstColon (P ++ x :: C) = some (P, C) := by
  induction P with
  | nil => simp [splitFirstColon, hx]
  | cons c t ih =>
    have hc : isColon c = false := hP c (by simp)
    simp [splitFirstColon, hc, ih (fun d hd => hP d (by simp [hd]))]

theorem splitFirstColon_none_of (t : List Char) (h : ∀ c ∈ t, isColon c = false) :
    splitFirstColon t = none := by
  induction t with
  | nil => rfl
  | cons c l ih =>
    simp [splitFirstColon, h c (by simp), ih (fun d hd => h d (by simp [hd]))]

theorem contentCapture_of_no_newline (C : List Char) (h : '\n' ∉ C) :
    contentCapture C = some C := by
  unfold contentCapture
  cases hr : C.reverse with
  | nil => rfl
  | cons d ds =>
    have hd : ¬d = '\n' := by
      intro he
      exact h (by rw [← List.mem_reverse, hr, ← he]; simp)
    have hcont : C.contains '\n' = false := by simpa using h
    simp [hd, hcont, h]

/-- The full regex on input `A 回复 B：C` (clean components). -/
theorem fromTextCore_shape1 (A B C : List Char)
    (hAne : A ≠ []) (hA : ∀ c ∈ A, pySpace c = false ∧ isColon c = false ∧ ¬c = '回')
    (hBne : B ≠ []) (hB : ∀ c ∈ B, pySpace c = false ∧ isColon c = false)
    (hC : '\n' ∉ C) :
    fromTextCore (A ++ ' ' :: '回' :: '复' :: ' ' :: (B ++ '：' :: C)) =
      some (A, some B, C) := by
  have hassoc : A ++ ' ' :: '回' :: '复' :: ' ' :: (B ++ '：' :: C) =
      (A ++ ' ' :: '回' :: '复' :: ' ' :: B) ++ '：' :: C := by
    simp
  rw [hassoc]
  unfold fromTextCore
  have hsplit : splitFirstColon ((A ++ ' ' :: '回' :: '复' :: ' ' :: B) ++ '：' :: C) =
      some (A ++ ' ' :: '回' :: '复' :: ' ' :: B, C) := by
    apply splitFirstColon_of _ _ _ (by decide)
    intro c hc
    rcases List.mem_append.mp hc with h1 | h1
    · exact (hA c h1).2.1
    · simp only [List.mem_cons] at h1
      rcases h1 with rfl | rfl | rfl | rfl | h2
      · decide
      · decide
      · decide
      · decide
      · exact (hB c h2).2
  rw [hsplit]
  have hne : (A ++ ' ' :: '回' :: '复' :: ' ' :: B).isEmpty = false := by
    cases A with
    | nil => exact absurd rfl hAne
    | cons c t => rfl
  dsimp only
  rw [hne]
  simp only [Bool.false_eq_true, if_false]
  rw [contentCapture_of_no_newline C hC,
    prefixDecomp_shape1 A B hAne (fun c hc => ⟨(hA c hc).1, (hA c hc).2.2⟩) hBne
      (fun c hc => (hB c hc).1)]
  rfl

/-- The full regex on input `A：C` (clean author). -/
theorem fromTextCore_shape2 (A C : List Char)
    (hAne : A ≠ []) (hA : ∀ c ∈ A, pySpace c = false ∧ isColon c = false ∧ ¬c = '回')
    (hC : '\n' ∉ C) :
    fromTextCore (A ++ '：' :: C) = some (A, none, C) := by
  unfold fromTextCore
  rw [splitFirstColon_of A C '：' (by decide) (fun c hc => (hA c hc).2.1)]
  have hne : A.isEmpty = false := by
    cases A with
    | nil => exact absurd rfl hAne
    | cons c t => rfl
  dsimp only
  rw [hne]
  simp only [Bool.false_eq_true, if_false]
  rw [contentCapture_of_no_newline C hC,
    prefixDecomp_shape2 A hAne (fun c hc => ⟨(hA c hc).1, (hA c hc).2.2⟩)]
  rfl

theorem from_text_shape1 (A B C : List Char)
    (hAne : A ≠ []) (hA : ∀ c ∈ A, pySpace c = false ∧ isColon c = false ∧ ¬c = '回')
    (hBne : B ≠ []) (hB : ∀ c ∈ B, pySpace c = false ∧ isColon c = false)
    (hCn : '\n' ∉ C) (hCs : pyStrip C = C) :
    MomentComment.from_text (String.mk (A ++ ' ' :: '回' :: '复' :: ' ' :: (B ++ '：' :: C))) =
      ⟨String.mk A, String.mk C, some (String.mk B),
        String.mk (A ++ ' ' :: '回' :: '复' :: ' ' :: (B ++ '：' :: C))⟩ := by
  obtain ⟨a0, A', rfl⟩ : ∃ a0 A', A = a0 :: A' := by
    cases A with
    | nil => exact absurd rfl hAne
    | cons c t => exact ⟨c, t, rfl⟩
  have htne : (a0 :: A') ++ ' ' :: '回' :: '复' :: ' ' :: (B ++ '：' :: C) ≠ [] := by simp
  have hs2 : pyStrip ((a0 :: A') ++ ' ' :: '回' :: '复' :: ' ' :: (B ++ '：' :: C)) =
      (a0 :: A') ++ ' ' :: '回' :: '复' :: ' ' :: (B ++ '：' :: C) := by
    apply pyStrip_eq_self_of_ends htne
    · simpa using (hA a0 (by simp)).1
    · have hassoc : (a0 :: A') ++ ' ' :: '回' :: '复' :: ' ' :: (B ++ '：' :: C) =
          ((a0 :: A') ++ ' ' :: '回' :: '复' :: ' ' :: B) ++ '：' :: C := by simp
      have hne2 : ((a0 :: A') ++ ' ' :: '回' :: '复' :: ' ' :: B) ++ '：' :: C ≠ [] := by simp
      have hcc : Nonempty True := ⟨trivial⟩
      rw [List.getLast_congr htne hne2 hassoc,
        List.getLast_append_of_ne_nil (List.cons_ne_nil '：' C)]
      cases C with
      | nil => decide
      | cons c0 C' =>
        rw [List.getLast_cons (by simp)]
        exact last_not_ws_of_dropTrailing (by simp) (pyStrip_parts hCs).2
  show MomentComment.from_text
      (String.mk ((a0 :: A') ++ ' ' :: '回' :: '复' :: ' ' :: (B ++ '：' :: C))) = _
  unfold MomentComment.from_text
  rw [show (String.mk ((a0 :: A') ++ ' ' :: '回' :: '复' :: ' ' :: (B ++ '：' :: C))).toList =
      (a0 :: A') ++ ' ' :: '回' :: '复' :: ' ' :: (B ++ '：' :: C) from rfl]
  rw [hs2]
  dsimp only
  rw [fromTextCore_shape1 (a0 :: A') B C hAne hA hBne hB hCn]
  simp [pyStrip_eq_self_of_all (fun c hc => (hA c hc).1),
    pyStrip_eq_self_of_all (fun c hc => (hB c hc).1), hCs]

theorem from_text_shape2 (A C : List Char)
    (hAne : A ≠ []) (hA : ∀ c ∈ A, pySpace c = false ∧ isColon c = false ∧ ¬c = '回')
    (hCn : '\n' ∉ C) (hCs : pyStrip C = C) :
    MomentComment.from_text (String.mk (A ++ '：' :: C)) =
      ⟨String.mk A, String.mk C, none, String.mk (A ++ '：' :: C)⟩ := by
  obtain ⟨a0, A', rfl⟩ : ∃ a0 A', A = a0 :: A' := by
    cases A with
    | nil => exact absurd rfl hAne
    | cons c t => exact ⟨c, t, rfl⟩
  have htne : (a0 :: A') ++ '：' :: C ≠ [] := by simp
  have hs2 : pyStrip ((a0 :: A') ++ '：' :: C) = (a0 :: A') ++ '：' :: C := by
    apply pyStrip_eq_self_of_ends htne
    · simpa using (hA a0 (by simp)).1
    · rw [List.getLast_append_of_ne_nil (List.cons_ne_nil '：' C)]
      cases C with
      | nil => decide
      | cons c0 C' =>
        rw [List.getLast_cons (by simp)]
        exact last_not_ws_of_dropTrailing (by simp) (pyStrip_parts hCs).2
  show MomentComment.from_text (String.mk ((a0 :: A') ++ '：' :: C)) = _
  unfold MomentComment.from_text
  rw [show (String.mk ((a0 :: A') ++ '：' :: C)).toList = (a0 :: A') ++ '：' :: C from rfl]
  rw [hs2]
  dsimp only
  rw [fromTextCore_shape2 (a0 :: A') C hAne hA hCn]
  simp [pyStrip_eq_self_of_all (fun c hc => (hA c hc).1), hCs]

theorem from_text_no_colon (text : String) (h : ∀ c ∈ text.toList, isColon c = false) :
    MomentComment.from_text text =
      ⟨"", String.mk (pyStrip text.toList), none, String.mk (pyStrip text.toList)⟩ := by
  have h2 : splitFirstColon (pyStrip text.toList) = none :=
    splitFirstColon_none_of _ (fun c hc => h c ((pyStrip_sublist text.toList).subset hc))
  have h3 : fromTextCore (pyStrip text.toList) = none := by
    unfold fromTextCore
    rw [h2]
  simp only [MomentComment.from_text, h3]

/-- C2: `MomentComment.from_text` parses `A 回复 B：C` into author `A`, reply
target `B`, content `C`; parses `A：C` into author `A`, no reply target,
content `C`; and on input with no colon separator returns an empty author and
the full stripped text as content, with no reply target.  The component
hypotheses pin down the claimed shapes: `A`/`B` are plain names (non-empty,
no whitespace, no colon, `A` without the reply marker character), and `C` is
already stripped and single-line. -/
theorem c2_from_text_shapes :
    (∀ A B C : List Char, A ≠ [] →
      (∀ c ∈ A, pySpace c = false ∧ isColon c = false ∧ ¬c = '回') →
      B ≠ [] → (∀ c ∈ B, pySpace c = false ∧ isColon c = false) →
      '\n' ∉ C → pyStrip C = C →
      MomentComment.from_text (String.mk (A ++ ' ' :: '回' :: '复' :: ' ' :: (B ++ '：' :: C))) =
        ⟨String.mk A, String.mk C, some (String.mk B),
          String.mk (A ++ ' ' :: '回' :: '复' :: ' ' :: (B ++ '：' :: C))⟩) ∧
    (∀ A C : List Char, A ≠ [] →
      (∀ c ∈ A, pySpace c = false ∧ isColon c = false ∧ ¬c = '回') →
      '\n' ∉ C → pyStrip C = C →
      MomentComment.from_text (String.mk (A ++ '：' :: C)) =
        ⟨String.mk A, String.mk C, none, String.mk (A ++ '：' :: C)⟩) ∧
    (∀ text : String, (∀ c ∈ text.toList, isColon c = false) →
      MomentComment.from_text text =
        ⟨"", String.mk (pyStrip text.toList), none, String.mk (pyStrip text.toList)⟩) :=
  ⟨from_text_shape1, from_text_shape2, from_text_no_colon⟩

/-- Witness for C2 at the spec's own examples. -/
theorem c2_from_text_shapes_witness :
    MomentComment.from_text
        (String.mk (['张', '三'] ++ ' ' :: '回' :: '复' :: ' ' :: (['李', '四'] ++ '：' :: ['你', '好']))) =
      ⟨String.mk ['张', '三'], String.mk ['你', '好'], some (String.mk ['李', '四']),
        String.mk (['张', '三'] ++ ' ' :: '回' :: '复' :: ' ' :: (['李', '四'] ++ '：' :: ['你', '好']))⟩ ∧
    MomentComment.from_text (String.mk (['张', '三'] ++ '：' :: ['哈', '喽'])) =
      ⟨String.mk ['张', '三'], String.mk ['哈', '喽'], none,
        String.mk (['张', '三'] ++ '：' :: ['哈', '喽'])⟩ ∧
    MomentComment.from_text "no colon here" =
      ⟨"", String.mk (pyStrip "no colon here".toList), none,
        String.mk (pyStrip "no colon here".toList)⟩ :=
  ⟨c2_from_text_shapes.1 ['张', '三'] ['李', '四'] ['你', '好'] (by decide) (by decide)
      (by decide) (by decide) (by decide) (by decide),
    c2_from_text_shapes.2.1 ['张', '三'] ['哈', '喽'] (by decide) (by decide) (by decide)
      (by decide),
    c2_from_text_shapes.2.2 "no colon here" (by decide)⟩

/-! ## String splitting (Python `str.split` and `re.split` on a char class) -/

/-- Python `str.split(sep)` for a non-empty separator `s0 :: srest`:
left-to-right, non-overlapping, keeps empty segments.  The `fuel` argument
only makes the recursion structural (each step consumes at least one
character, so `fuel = l.length` never runs out). -/
def pySplit1F (s0 : Char) (srest : List Char) : Nat → List Char → List (List Char)
  | _, [] => [[]]
  | 0, l => [l]
  | fuel + 1, c :: rest =>
    if (s0 :: srest).isPrefixOf (c :: rest) then
      [] :: pySplit1F s0 srest fuel (rest.drop srest.length)
    else
      match pySplit1F s0 srest fuel rest with
      | [] => [[c]]
      | p :: ps => (c :: p) :: ps

def pySplit1 (s0 : Char) (srest : List Char) (l : List Char) : List (List Char) :=
  pySplit1F s0 srest l.length l

/-- Python `str.split(sep)`; an empty separator never occurs in the embedded
call sites (they all pass literal non-empty separators). -/
def pySplitS (sep : List Char) (l : List Char) : List (List Char) :=
  match sep with
  | [] => [l]
  | s0 :: srest => pySplit1 s0 srest l

/-- Python `re.split` on a single-character class: split at every character
satisfying `p`, keeping empty segments. -/
def splitOnPred (p : Char → Bool) : List Char → List (List Char)
  | [] => [[]]
  | c :: rest =>
    if p c then [] :: splitOnPred p rest
    else
      match splitOnPred p rest with
      | [] => [[c]]
      | q :: qs => (c :: q) :: qs

/-! ## `_split_like_names` (src/wxauto4/moment.py)

`_split_like_names` consults `_lang('赞')` and `_lang('分隔符_点赞')` from
`wxauto4.languages.MOMENTS`, a module not present in the sources. -/

/-- Modelled from the spec: the per-language keyword table (`languages.MOMENTS`
consulted through `_lang`) is not in the sources; the like keyword and the
optional likes separator are taken as parameters.  `sep = none` (or an empty
configured separator, which Python treats as falsy) selects the documented
fallback of splitting on comma/colon characters. -/
def split_like_names (likeKw : List Char) (sep : Option (List Char))
    (text : List Char) : List (List Char) :=
  if text.isEmpty then []
  else
    let t := pyStrip text
    let t2 := if likeKw.isPrefixOf t then
        (t.drop likeKw.length).dropWhile (fun c => c = '：' || c = ':' || c = ' ')
      else t
    match sep with
    | some (s0 :: srest) =>
      ((pySplit1 s0 srest t2).map pyStrip).filter (fun p => !p.isEmpty)
    | _ =>
      ((splitOnPred (fun c => c = ',' || c = ':' || c = '，') t2).map pyStrip).filter
        (fun p => !p.isEmpty)

/-- C9: the likes line `赞: 张三, 李四` parses to the two names, a likes line
with nothing after the like keyword and its prefix punctuation parses to `[]`,
and both results are obtained with no language-specific separator configured
(`sep = none`), i.e. through the comma/colon fallback split. -/
theorem c9_split_like_names :
    (split_like_names "赞".toList none "赞: 张三, 李四".toList).map String.mk =
      ["张三", "李四"] ∧
    split_like_names "赞".toList none "赞：".toList = [] ∧
    split_like_names "赞".toList none "赞: ".toList = [] ∧
    (split_like_names "赞".toList none "赞：张三，李四".toList).map String.mk =
      ["张三", "李四"] := by
  refine ⟨?_, ?_, ?_, ?_⟩ <;> decide

/-! ## `SessionElement` (src/wxauto4/ui/sessionbox.py) -/

/-- `SessionElement.texts`: split the control text on newlines, keeping only
lines that are non-empty and not whitespace-only (the kept lines are NOT
stripped). -/
def sessionTexts (content : List Char) : List (List Char) :=
  (pySplitS ['\n'] content).filter (fun line => !line.isEmpty && !(pyStrip line).isEmpty)

/-- `SessionElement.name`: first kept line, or empty. -/
def sessionName (content : List Char) : List Char := (sessionTexts content).headD []

/-- Numeric value of an ASCII digit string (Python `int`). -/
def digitsToNat (ds : List Char) : Nat :=
  ds.foldl (fun acc c => acc * 10 + (c.toNat - '0'.toNat)) 0

/-- One anchored attempt of the regex `\[(\d+)条\]`: a literal `[`, a
non-empty maximal digit run (greedy `\d+` backtracking cannot help because a
digit never equals `条`), then `条]`. -/
def unreadHere (l : List Char) : Option Nat :=
  match l with
  | c :: rest =>
    if c = '[' then
      let ds := rest.takeWhile Char.isDigit
      if ds.isEmpty then none
      else
        match rest.drop ds.length with
        | c1 :: c2 :: _ =>
          if c1 = '条' then if c2 = ']' then some (digitsToNat ds) else none else none
        | _ => none
    else none
  | [] => none

/-- `re.search` for the unread pattern: leftmost match, advancing one
character at a time. -/
def searchUnread : List Char → Option Nat
  | [] => none
  | c :: rest =>
    match unreadHere (c :: rest) with
    | some k => some k
    | none => searchUnread rest

/-- `SessionElement.unread_count`: first line of `texts` (line 0 included)
containing the bracketed pattern wins; otherwise 0. -/
def sessionUnreadCount (content : List Char) : Nat :=
  (firstSome (sessionTexts content) searchUnread).getD 0

/-- Written from the spec's words for comparison (C6): the unread count is
found by scanning only the lines after line 0. -/
def specClaimUnreadCount (content : List Char) : Nat :=
  (firstSome ((sessionTexts content).drop 1) searchUnread).getD 0

/-- C6 counterexample: when the session *name* itself contains the bracketed
pattern, the code reports it as the unread count, while the claim (scan only
the lines after line 0) predicts 0. -/
theorem c6_counterexample :
    sessionName "A[5条]\nB".toList = "A[5条]".toList ∧
    sessionUnreadCount "A[5条]\nB".toList = 5 ∧
    specClaimUnreadCount "A[5条]\nB".toList = 0 := by
  refine ⟨?_, ?_, ?_⟩ <;> decide

/-- C6 (amended): line 0 of the kept lines is the name, and the unread count
is the first bracketed match over ALL kept lines — line 0 included — in
order, defaulting to 0 when no line matches. -/
theorem c6_session_summary (content l₀ : List Char) (ls : List (List Char))
    (h : sessionTexts content = l₀ :: ls) :
    sessionName content = l₀ ∧
    (∀ k, searchUnread l₀ = some k → sessionUnreadCount content = k) ∧
    (searchUnread l₀ = none →
      sessionUnreadCount content = (firstSome ls searchUnread).getD 0) ∧
    ((∀ l ∈ l₀ :: ls, searchUnread l = none) → sessionUnreadCount content = 0) := by
  refine ⟨?_, ?_, ?_, ?_⟩
  · rw [sessionName, h]
    rfl
  · intro k hk
    rw [sessionUnreadCount, h, firstSome_cons_some _ _ _ _ hk]
    rfl
  · intro hn
    rw [sessionUnreadCount, h, firstSome_cons_none _ _ _ hn]
  · intro hall
    rw [sessionUnreadCount, h, (firstSome_eq_none_iff _ _).mpr hall]
    rfl

/-- Witness for C6 (amended) on a concrete two-line session blob. -/
theorem c6_session_summary_witness :
    sessionName "Alice\n一[3条]".toList = "Alice".toList ∧
    sessionUnreadCount "Alice\n一[3条]".toList = 3 := by
  have h := c6_session_summary "Alice\n一[3条]".toList "Alice".toList ["一[3条]".toList]
    (by decide)
  refine ⟨h.1, ?_⟩
  rw [h.2.2.1 (by decide)]
  decide

/-! ## `Message` record model (src/wxauto4/msgs/base.py)

The dynamically-injected `__dict__` of a message is modelled as an ordered
association list from field names to values; `WxParam.MESSAGE_HASH` is the
boolean parameter `mh`.  Values are modelled by `PyVal` (`vnone` is Python
`None`; Python `==` on these values is plain structural equality). -/

inductive PyVal where
  | vnone
  | vint (n : Int)
  | vstr (s : String)
  | vref (r : Nat)
deriving DecidableEq, Repr

/-- `Message._EXCLUDE_FIELDS`. -/
def EXCLUDE_FIELDS : List String := ["control", "parent", "root"]

/-- Python `key.startswith("_")` (single-character prefix test, written on
the character list so that it evaluates in the kernel). -/
def startsUnderscore (k : String) : Bool :=
  match k.toList with
  | c :: _ => c == '_'
  | [] => false

/-- `Message._iter_public_items`: skip `_`-prefixed names, the excluded
bookkeeping fields, and `hash` when `WxParam.MESSAGE_HASH` is off. -/
def iterPublicItems (mh : Bool) (d : List (String × PyVal)) : List (String × PyVal) :=
  d.filter (fun kv =>
    !(startsUnderscore kv.1) && !(EXCLUDE_FIELDS.contains kv.1) && !(kv.1 == "hash" && !mh))

/-- `Message.keys` (also the iteration order and the domain of `__len__`). -/
def msgKeys (mh : Bool) (d : List (String × PyVal)) : List String :=
  (iterPublicItems mh d).map Prod.fst

/-- `Message.__getitem__`: first public field with the given name, `none`
models the `KeyError` branch. -/
def getItem (mh : Bool) (d : List (String × PyVal)) (k : String) : Option PyVal :=
  (iterPublicItems mh d).lookup k

/-- `Message.__contains__` (string keys; non-string keys return False in the
source and are not modelled). -/
def containsKey (mh : Bool) (d : List (String × PyVal)) (k : String) : Bool :=
  (iterPublicItems mh d).any (fun kv => kv.1 == k)

/-- `Message.match`: `all(data.get(key) == value ...)` where `data.get`
returns `None` for missing keys. -/
def msgMatch (mh : Bool) (d conds : List (String × PyVal)) : Bool :=
  conds.all (fun kv => (getItem mh d kv.1).getD PyVal.vnone == kv.2)

/-- The `__dict__` produced by `BaseMessage.__init__`, in insertion order
(the object-valued fields `parent`, `control`, `root` as opaque references). -/
def baseMessageDict (parentRef controlRef rootRef : Nat)
    (direction distince idv contentv hashTextv hashv : PyVal) : List (String × PyVal) :=
  [("parent", PyVal.vref parentRef), ("control", PyVal.vref controlRef),
    ("direction", direction), ("distince", distince), ("root", PyVal.vref rootRef),
    ("id", idv), ("content", contentv), ("hash_text", hashTextv), ("hash", hashv)]

theorem lookup_eq_none_of_keys {d : List (String × PyVal)} {k : String}
    (h : ∀ kv ∈ d, kv.1 ≠ k) : d.lookup k = none := by
  induction d with
  | nil => rfl
  | cons kv es ih =>
    have h1 : ¬(k == kv.1) = true := by
      simp only [beq_iff_eq]
      exact fun he => h kv (by simp) he.symm
    obtain ⟨k1, v1⟩ := kv
    have hb : (k == k1) = false := by simpa using h1
    simp only [List.lookup, hb]
    exact ih (fun x hx => h x (by simp [hx]))

theorem iterPublicItems_no_hash_off (d : List (String × PyVal)) :
    ∀ kv ∈ iterPublicItems false d, kv.1 ≠ "hash" := by
  intro kv hkv he
  have hf := (List.mem_filter.mp hkv).2
  rw [he] at hf
  simp at hf

/-- C10: every public field view excludes `_`-prefixed names and the
`control`/`parent`/`root` bookkeeping fields; the `hash` field is excluded
exactly when `MESSAGE_HASH` is off — in that mode lookup of `hash` signals
`KeyError` and membership is false even though `BaseMessage.__init__` stores
the attribute, and with the flag on the stored `hash` attribute is visible. -/
theorem c10_public_field_view :
    (∀ (mh : Bool) (d : List (String × PyVal)) (k : String), k ∈ msgKeys mh d →
      startsUnderscore k = false ∧ k ∉ EXCLUDE_FIELDS ∧ (k = "hash" → mh = true)) ∧
    (∀ d : List (String × PyVal),
      getItem false d "hash" = none ∧ containsKey false d "hash" = false) ∧
    (∀ (d : List (String × PyVal)) (v : PyVal), ("hash", v) ∈ d →
      containsKey true d "hash" = true) ∧
    (∀ (pr cr rr : Nat) (dv dis idv cv htv hv : PyVal),
      getItem false (baseMessageDict pr cr rr dv dis idv cv htv hv) "hash" = none ∧
      containsKey false (baseMessageDict pr cr rr dv dis idv cv htv hv) "hash" = false ∧
      ("hash", hv) ∈ baseMessageDict pr cr rr dv dis idv cv htv hv ∧
      containsKey true (baseMessageDict pr cr rr dv dis idv cv htv hv) "hash" = true ∧
      msgKeys true (baseMessageDict pr cr rr dv dis idv cv htv hv) =
        ["direction", "distince", "id", "content", "hash_text", "hash"] ∧
      msgKeys false (baseMessageDict pr cr rr dv dis idv cv htv hv) =
        ["direction", "distince", "id", "content", "hash_text"]) := by
  refine ⟨?_, ?_, ?_, ?_⟩
  · intro mh d k hk
    obtain ⟨kv, hkv, rfl⟩ := List.mem_map.mp hk
    have hf := (List.mem_filter.mp hkv).2
    simp only [Bool.and_eq_true, Bool.not_eq_true', Bool.and_eq_false_iff,
      Bool.not_eq_false, beq_iff_eq] at hf
    refine ⟨hf.1.1, by simpa using hf.1.2, fun hh => ?_⟩
    rcases hf.2 with h | h
    · exact absurd hh (by simpa using h)
    · simpa using h
  · intro d
    constructor
    · exact lookup_eq_none_of_keys (iterPublicItems_no_hash_off d)
    · rw [containsKey]
      rw [List.any_eq_false]
      intro kv hkv
      simpa using iterPublicItems_no_hash_off d kv hkv
  · intro d v hmem
    rw [containsKey, List.any_eq_true]
    refine ⟨("hash", v), List.mem_filter.mpr ⟨hmem, ?_⟩, by simp⟩
    rfl
  · intro pr cr rr dv dis idv cv htv hv
    refine ⟨rfl, rfl, by simp [baseMessageDict], rfl, rfl, rfl⟩

/-- Witness for C10 on a concrete message dictionary. -/
theorem c10_public_field_view_witness :
    (startsUnderscore "content" = false ∧ "content" ∉ EXCLUDE_FIELDS ∧
      ("content" = "hash" → true = true)) ∧
    containsKey true [("hash", PyVal.vstr "h")] "hash" = true ∧
    getItem false (baseMessageDict 0 1 2 PyVal.vnone PyVal.vnone (PyVal.vstr "id1")
      (PyVal.vstr "hello") (PyVal.vstr "ht") (PyVal.vstr "h")) "hash" = none :=
  ⟨c10_public_field_view.1 true [("content", PyVal.vstr "hello")] "content" (by decide),
    c10_public_field_view.2.2.1 [("hash", PyVal.vstr "h")] (PyVal.vstr "h") (by decide),
    (c10_public_field_view.2.2.2 0 1 2 PyVal.vnone PyVal.vnone (PyVal.vstr "id1")
      (PyVal.vstr "hello") (PyVal.vstr "ht") (PyVal.vstr "h")).1⟩

theorem getItem_none_of_not_contains {mh : Bool} {d : List (String × PyVal)}
    {k : String} (h : containsKey mh d k = false) : getItem mh d k = none := by
  apply lookup_eq_none_of_keys
  intro kv hkv he
  rw [containsKey, List.any_eq_false] at h
  have := h kv hkv
  simp [he] at this

theorem lookup_isSome_of_mem {l : List (String × PyVal)} {kv : String × PyVal}
    (hkv : kv ∈ l) : ∃ v, l.lookup kv.1 = some v := by
  induction l with
  | nil => simp at hkv
  | cons e es ih =>
    obtain ⟨k1, v1⟩ := e
    by_cases hke : kv.1 = k1
    · exact ⟨v1, by simp [List.lookup, hke]⟩
    · rcases List.mem_cons.mp hkv with rfl | hmem
      · exact absurd rfl hke
      · obtain ⟨v, hv⟩ := ih hmem
        refine ⟨v, ?_⟩
        have hb : (kv.1 == k1) = false := by simpa using hke
        simp [List.lookup, hb, hv]

theorem getItem_some_of_contains {mh : Bool} {d : List (String × PyVal)}
    {k : String} (h : containsKey mh d k = true) : ∃ v, getItem mh d k = some v := by
  rw [containsKey, List.any_eq_true] at h
  obtain ⟨kv, hkv, hk⟩ := h
  have hkeq : kv.1 = k := by simpa using hk
  rw [getItem, ← hkeq]
  exact lookup_isSome_of_mem hkv

/-- C5 counterexample: `match` on a field absent from the record succeeds when
the supplied value is `None`, because `dict.get` defaults to `None`; the claim
says a condition naming an unknown field fails for every supplied value. -/
theorem c5_match_counterexample :
    containsKey true [("content", PyVal.vstr "hi")] "bogus" = false ∧
    msgMatch true [("content", PyVal.vstr "hi")] [("bogus", PyVal.vnone)] = true := by
  exact ⟨rfl, rfl⟩

/-- C5 (amended): `match` succeeds iff every supplied field's looked-up value
— with `None` as the default for fields not in the public view — equals the
supplied value.  Hence for known fields it is value equality, and a condition
on an unknown field succeeds exactly when the supplied value is `None`. -/
theorem c5_match_semantics :
    (∀ (mh : Bool) (d conds : List (String × PyVal)),
      msgMatch mh d conds = true ↔
        ∀ kv ∈ conds, (getItem mh d kv.1).getD PyVal.vnone = kv.2) ∧
    (∀ (mh : Bool) (d : List (String × PyVal)) (k : String) (v : PyVal),
      containsKey mh d k = false →
      (msgMatch mh d [(k, v)] = true ↔ v = PyVal.vnone)) ∧
    (∀ (mh : Bool) (d : List (String × PyVal)) (k : String) (v w : PyVal),
      getItem mh d k = some w →
      (msgMatch mh d [(k, v)] = true ↔ w = v)) := by
  have hmain : ∀ (mh : Bool) (d conds : List (String × PyVal)),
      msgMatch mh d conds = true ↔
        ∀ kv ∈ conds, (getItem mh d kv.1).getD PyVal.vnone = kv.2 := by
    intro mh d conds
    rw [msgMatch, List.all_eq_true]
    constructor
    · intro h kv hkv
      simpa using h kv hkv
    · intro h kv hkv
      simpa using h kv hkv
  refine ⟨hmain, ?_, ?_⟩
  · intro mh d k v hnc
    rw [hmain]
    simp [getItem_none_of_not_contains hnc, eq_comm]
  · intro mh d k v w hw
    rw [hmain]
    simp [hw]

/-- Witness for C5 (amended) on a concrete record. -/
theorem c5_match_semantics_witness :
    (msgMatch true [("content", PyVal.vstr "hi")] [("absent", PyVal.vnone)] = true ↔
      PyVal.vnone = PyVal.vnone) ∧
    (msgMatch true [("content", PyVal.vstr "hi")] [("content", PyVal.vstr "hi")] = true ↔
      PyVal.vstr "hi" = PyVal.vstr "hi") :=
  ⟨c5_match_semantics.2.1 true [("content", PyVal.vstr "hi")] "absent" PyVal.vnone rfl,
    c5_match_semantics.2.2 true [("content", PyVal.vstr "hi")] "content" (PyVal.vstr "hi")
      (PyVal.vstr "hi") rfl⟩

/-! ## `Message.__eq__` / `Message.__hash__` (src/wxauto4/msgs/base.py)

`id` and `hash` are `getattr(..., None)` lookups, modelled as `Option PyVal`;
`ref` models object identity (`self is other` — distinct instances carry
distinct `ref`s).  Python's `__hash__` applies the builtin `hash()` to the
selected key; the model returns the selected key itself (`HashKey`), so equal
keys mean equal Python hashes and distinct keys mean distinct hash inputs. -/

structure Msg where
  id : Option PyVal
  hash : Option PyVal
  ref : Nat
  content : String
deriving DecidableEq, Repr

/-- `Message.__eq__`: both ids present ⇒ compare ids; otherwise compare
content hashes when `MESSAGE_HASH` is enabled, else object identity. -/
def msgEq (mh : Bool) (a b : Msg) : Bool :=
  match a.id, b.id with
  | some i, some j => i == j
  | _, _ => if mh then a.hash == b.hash else a.ref == b.ref

inductive HashKey where
  | byId (v : PyVal)
  | byHash (v : Option PyVal)
  | byRef (r : Nat)
deriving DecidableEq, Repr

/-- `Message.__hash__`: the key fed to the builtin `hash()`. -/
def msgHashKey (mh : Bool) (a : Msg) : HashKey :=
  match a.id with
  | some i => HashKey.byId i
  | none => if mh then HashKey.byHash a.hash else HashKey.byRef a.ref

/-- C4 counterexample: with `MESSAGE_HASH` enabled, a record with an id and a
record without one compare equal through the content-hash branch of `__eq__`,
yet `__hash__` feeds `hash()` the id for the first and the content hash for
the second — so equal records do not get equal hashes in the mixed-id case. -/
theorem c4_counterexample :
    msgEq true ⟨some (PyVal.vint 1), some (PyVal.vstr "h"), 0, "x"⟩
        ⟨none, some (PyVal.vstr "h"), 1, "y"⟩ = true ∧
    msgHashKey true ⟨some (PyVal.vint 1), some (PyVal.vstr "h"), 0, "x"⟩ ≠
      msgHashKey true ⟨none, some (PyVal.vstr "h"), 1, "y"⟩ := by
  exact ⟨rfl, by decide⟩

/-- C4 (amended): with both ids present equality is id equality regardless of
content; with both ids absent and hash-mode off equality is object identity;
`__hash__` follows the precedence id → content hash (if enabled) → identity;
and equality implies equal hash keys whenever both records sit in the same
precedence tier (both have ids, or neither does) — but not across tiers. -/
theorem c4_identity_precedence :
    (∀ (mh : Bool) (a b : Msg) (i j : PyVal), a.id = some i → b.id = some j →
      (msgEq mh a b = true ↔ i = j)) ∧
    (∀ a b : Msg, a.id = none → b.id = none →
      (msgEq false a b = true ↔ a.ref = b.ref)) ∧
    (∀ (mh : Bool) (a : Msg),
      (∀ i, a.id = some i → msgHashKey mh a = HashKey.byId i) ∧
      (a.id = none → mh = true → msgHashKey mh a = HashKey.byHash a.hash) ∧
      (a.id = none → mh = false → msgHashKey mh a = HashKey.byRef a.ref)) ∧
    (∀ (mh : Bool) (a b : Msg), a.id.isSome = b.id.isSome →
      msgEq mh a b = true → msgHashKey mh a = msgHashKey mh b) := by
  refine ⟨?_, ?_, ?_, ?_⟩
  · intro mh a b i j hi hj
    rw [msgEq, hi, hj]
    simp
  · intro a b ha hb
    rw [msgEq, ha, hb]
    simp
  · intro mh a
    refine ⟨fun i hi => by rw [msgHashKey, hi], fun ha hm => by rw [msgHashKey, ha, hm]; rfl,
      fun ha hm => by rw [msgHashKey, ha, hm]; rfl⟩
  · intro mh a b hsame heq
    cases hai : a.id with
    | some i =>
      cases hbi : b.id with
      | some j =>
        rw [msgEq, hai, hbi] at heq
        have hij : i = j := by simpa using heq
        rw [msgHashKey, msgHashKey, hai, hbi, hij]
      | none => rw [hai, hbi] at hsame; simp at hsame
    | none =>
      cases hbi : b.id with
      | some j => rw [hai, hbi] at hsame; simp at hsame
      | none =>
        rw [msgEq, hai, hbi] at heq
        rw [msgHashKey, msgHashKey, hai, hbi]
        cases mh with
        | true =>
          have : a.hash = b.hash := by simpa using heq
          simp [this]
        | false =>
          have : a.ref = b.ref := by simpa using heq
          simp [this]

/-- Witness for C4 (amended) on concrete records. -/
theorem c4_identity_precedence_witness :
    (msgEq true ⟨some (PyVal.vint 7), some (PyVal.vstr "h1"), 0, "x"⟩
        ⟨some (PyVal.vint 7), some (PyVal.vstr "h2"), 1, "y"⟩ = true ↔
      PyVal.vint 7 = PyVal.vint 7) ∧
    (msgEq false ⟨none, none, 3, "x"⟩ ⟨none, none, 3, "x"⟩ = true ↔ (3 : Nat) = 3) ∧
    msgHashKey true ⟨some (PyVal.vint 7), none, 0, "x"⟩ = HashKey.byId (PyVal.vint 7) ∧
    msgHashKey true ⟨some (PyVal.vint 7), some (PyVal.vstr "h1"), 0, "x"⟩ =
      msgHashKey true ⟨some (PyVal.vint 7), some (PyVal.vstr "h2"), 1, "y"⟩ :=
  ⟨c4_identity_precedence.1 true _ _ (PyVal.vint 7) (PyVal.vint 7) rfl rfl,
    c4_identity_precedence.2.1 ⟨none, none, 3, "x"⟩ ⟨none, none, 3, "x"⟩ rfl rfl,
    (c4_identity_precedence.2.2.1 true ⟨some (PyVal.vint 7), none, 0, "x"⟩).1
      (PyVal.vint 7) rfl,
    c4_identity_precedence.2.2.2 true
      ⟨some (PyVal.vint 7), some (PyVal.vstr "h1"), 0, "x"⟩
      ⟨some (PyVal.vint 7), some (PyVal.vstr "h2"), 1, "y"⟩ rfl rfl⟩

/-! ## `SessionBox.switch_chat` matching (src/wxauto4/ui/sessionbox.py)

The polling loop re-scans the search-result items until
`WxParam.SEARCH_CHAT_TIMEOUT`; over a fixed item list every scan is the pure
function below, and a scan with no match leaves the loop to time out and
return `None`.  Clicking the matched item is the selection. -/

/-- Python `needle in hay` on strings. -/
def containsSub (needle : List Char) : List Char → Bool
  | [] => needle.isPrefixOf []
  | c :: t => if needle.isPrefixOf (c :: t) then true else containsSub needle t

/-- Python `str.lower()` (ASCII; the labelled suffixes compared here are
wxids/nicknames, and CJK characters are unaffected by lowering). -/
def pyLowerL (l : List Char) : List Char := l.map Char.toLower

def wxidLabel : List Char := " 微信号: ".toList

def nickLabel : List Char := " 昵称: ".toList

/-- One item test of the `exact` branch: full-string equality (case
sensitive), else each labelled-suffix test `label in text` with the last
split segment compared lowercased, returning the first split segment. -/
def exactItemMatch (keywords text : List Char) : Option (List Char) :=
  if text = keywords then some keywords
  else if containsSub wxidLabel text &&
      (pyLowerL ((pySplitS wxidLabel text).getLastD []) == pyLowerL keywords) then
    some ((pySplitS wxidLabel text).headD [])
  else if containsSub nickLabel text &&
      (pyLowerL ((pySplitS nickLabel text).getLastD []) == pyLowerL keywords) then
    some ((pySplitS nickLabel text).headD [])
  else none

/-- One item test of the substring branch: `keywords in text`. -/
def subItemMatch (keywords text : List Char) : Option (List Char) :=
  if containsSub keywords text then some text else none

def itemMatch (exact : Bool) (keywords text : List Char) : Option (List Char) :=
  if exact then exactItemMatch keywords text else subItemMatch keywords text

/-- One scan of the result list: first matching item is clicked and its
associated name returned. -/
def switchChatScan (exact : Bool) (keywords : List Char)
    (items : List (List Char)) : Option (List Char) :=
  firstSome items (itemMatch exact keywords)

theorem firstSome_some_imp {α β : Type} {f : α → Option β} {l : List α} {b : β}
    (h : firstSome l f = some b) : ∃ a ∈ l, f a = some b := by
  induction l with
  | nil => simp [firstSome] at h
  | cons a t ih =>
    cases hfa : f a with
    | some c =>
      rw [firstSome_cons_some f a t c hfa] at h
      exact ⟨a, by simp, by rw [hfa, h]⟩
    | none =>
      rw [firstSome_cons_none f a t hfa] at h
      obtain ⟨x, hx, hfx⟩ := ih h
      exact ⟨x, by simp [hx], hfx⟩

/-- C8 counterexample: in exact mode the full-string comparison is case
SENSITIVE — a lone item differing from the keyword only by case is not
selected, although the two lowercase to the same string. -/
theorem c8_counterexample :
    switchChatScan true "alice".toList ["Alice".toList] = none ∧
    pyLowerL "Alice".toList = pyLowerL "alice".toList := ⟨rfl, rfl⟩

/-- C8 (amended): in exact mode an item is selected iff its text equals the
keyword as a full string CASE-SENSITIVELY, or its ` 微信号: ` / ` 昵称: `
labelled suffix equals the keyword case-insensitively; in substring mode iff
the keyword is contained in the text; and a scan over items none of which
match yields no selection (the polling loop then times out into the no-match
failure). -/
theorem c8_switch_chat_matching :
    (∀ kw text : List Char,
      (exactItemMatch kw text).isSome = true ↔
        (text = kw ∨
          (containsSub wxidLabel text = true ∧
            pyLowerL ((pySplitS wxidLabel text).getLastD []) = pyLowerL kw) ∨
          (containsSub nickLabel text = true ∧
            pyLowerL ((pySplitS nickLabel text).getLastD []) = pyLowerL kw))) ∧
    (∀ kw text : List Char,
      (subItemMatch kw text).isSome = true ↔ containsSub kw text = true) ∧
    (∀ (exact : Bool) (kw : List Char) (items : List (List Char)),
      (∀ t ∈ items, itemMatch exact kw t = none) → switchChatScan exact kw items = none) ∧
    (∀ (exact : Bool) (kw : List Char) (items : List (List Char)) (r : List Char),
      switchChatScan exact kw items = some r → ∃ t ∈ items, itemMatch exact kw t = some r) := by
  refine ⟨?_, ?_, ?_, ?_⟩
  · intro kw text
    rw [exactItemMatch]
    split_ifs with h1 h2 h3
    · simp [h1]
    · simp only [Option.isSome_some, true_iff]
      simp only [Bool.and_eq_true, beq_iff_eq] at h2
      exact Or.inr (Or.inl h2)
    · simp only [Option.isSome_some, true_iff]
      simp only [Bool.and_eq_true, beq_iff_eq] at h3
      exact Or.inr (Or.inr h3)
    · simp only [Option.isSome_none, Bool.false_eq_true, false_iff]
      intro hcon
      rcases hcon with hc | hc | hc
      · exact h1 hc
      · exact h2 (by simp only [hc.1, Bool.true_and, beq_iff_eq]; exact hc.2)
      · exact h3 (by simp only [hc.1, Bool.true_and, beq_iff_eq]; exact hc.2)
  · intro kw text
    rw [subItemMatch]
    split_ifs with h1 <;> simp [h1]
  · intro exact kw items hall
    exact (firstSome_eq_none_iff _ _).mpr hall
  · intro exact kw items r h
    exact firstSome_some_imp h

/-- Witness for C8 (amended) on concrete scans. -/
theorem c8_switch_chat_matching_witness :
    switchChatScan true "bob".toList ["Alice".toList, "张三".toList] = none ∧
    (∃ t ∈ ["群聊A".toList, "李四 微信号: Wxid_7".toList],
      itemMatch true "wxid_7".toList t = some "李四".toList) := by
  constructor
  · exact c8_switch_chat_matching.2.2.1 true "bob".toList
      ["Alice".toList, "张三".toList] (by decide)
  · exact c8_switch_chat_matching.2.2.2 true "wxid_7".toList
      ["群聊A".toList, "李四 微信号: Wxid_7".toList] "李四".toList (by decide)

/-! ## Moment comment flow with UI effects (src/wxauto4/moment.py)

`Moment.Comment` and `MomentCommentDialog.send` are embedded as pure
functions over an environment record describing which controls the live UI
currently offers; alongside the `WxResponse` result they return the ordered
list of UI effects (clicks, key injection, clipboard writes) the Python code
would have issued.  `try`-level UI exceptions are not modelled (they only
replace the success result by a failure after the same effects). -/

inductive UIEffect where
  | click
  | rightClick
  | keys (s : String)
  | clipboard (s : String)
deriving DecidableEq, Repr

/-- Modelled from the spec: `WxResponse` (wxauto4/param.py is not under
src/) is the uniform success/failure result carrying a message. -/
structure WxResponse where
  ok : Bool
  msg : String
deriving DecidableEq, Repr

def WxResponse.success (m : String) : WxResponse := ⟨true, m⟩

def WxResponse.failure (m : String) : WxResponse := ⟨false, m⟩

/-- The state of the comment dialog and its children, as
`MomentCommentDialog` would find them. -/
structure CommentDialogEnv where
  dialogExists : Bool
  editFound : Bool
  editExists : Bool
  clipboardAvailable : Bool
  sendButtonFound : Bool
  sendButtonExists : Bool
deriving DecidableEq, Repr

/-- `MomentCommentDialog.send`: existence check, empty-content check, input
lookup — all BEFORE any interaction — then click/select-all, paste (or
per-character fallback), and submit. -/
def dialogSend (env : CommentDialogEnv) (content : String) :
    WxResponse × List UIEffect :=
  if !env.dialogExists then (WxResponse.failure "评论窗口不存在", [])
  else if content = "" then (WxResponse.failure "评论内容不能为空", [])
  else if !(env.editFound && env.editExists) then (WxResponse.failure "未找到评论输入框", [])
  else
    let effs1 := [UIEffect.click, UIEffect.keys "{Ctrl}a"]
    let effs2 := if env.clipboardAvailable then
        [UIEffect.clipboard content, UIEffect.keys "{Ctrl}v"]
      else content.toList.map (fun c => UIEffect.keys (String.mk [c]))
    let effs3 := if env.sendButtonFound && env.sendButtonExists then [UIEffect.click]
      else [UIEffect.keys "{Enter}"]
    (WxResponse.success "评论成功", effs1 ++ effs2 ++ effs3)

/-- The parts of the live UI that `Moment.Comment` touches before the dialog. -/
structure CommentFlowEnv where
  commentFound : Bool
  commentCtrlFound : Bool
  actionButtonFound : Bool
  menuOpens : Bool
  menuCommentButton : Bool
  dialog : CommentDialogEnv
deriving DecidableEq, Repr

/-- `Moment._invoke_action_menu`: click the action button when present, else
right-click the item; the menu either appears or not. -/
def invokeActionMenu (env : CommentFlowEnv) : Bool × List UIEffect :=
  (env.menuOpens, if env.actionButtonFound then [UIEffect.click] else [UIEffect.rightClick])

/-- `Moment.Comment`: the reply path clicks the located comment control; the
plain path opens the action menu, clicks the comment button and closes the
menu (Esc, in `finally`); only then is the dialog located and `send` run. -/
def momentComment (env : CommentFlowEnv) (content : String)
    (reply_to : Option String) : WxResponse × List UIEffect :=
  match reply_to with
  | some _ =>
    if !env.commentFound then (WxResponse.failure "未找到需要回复的评论", [])
    else if !env.commentCtrlFound then (WxResponse.failure "未定位到评论控件", [])
    else
      let effs := [UIEffect.click]
      if !env.dialog.dialogExists then (WxResponse.failure "未弹出评论窗口", effs)
      else
        let r := dialogSend env.dialog content
        (r.1, effs ++ r.2)
  | none =>
    let m := invokeActionMenu env
    if !m.1 then (WxResponse.failure "未能打开朋友圈操作菜单", m.2)
    else
      let cr := if env.menuCommentButton then
          (WxResponse.success "已触发评论", [UIEffect.click])
        else (WxResponse.failure "未找到评论按钮", ([] : List UIEffect))
      let closeEff := [UIEffect.keys "{Esc}"]
      if !cr.1.ok then (cr.1, m.2 ++ cr.2 ++ closeEff)
      else if !env.dialog.dialogExists then
        (WxResponse.failure "未弹出评论窗口", m.2 ++ cr.2 ++ closeEff)
      else
        let r := dialogSend env.dialog content
        (r.1, m.2 ++ cr.2 ++ closeEff ++ r.2)

/-- C7 counterexample: with every control present, `Moment.Comment` on EMPTY
content over the reply path clicks the comment control before the content
check rejects at the `send` step — a UI interaction does occur. -/
theorem c7_counterexample :
    momentComment ⟨true, true, true, true, true, ⟨true, true, true, true, true, true⟩⟩
        "" (some "张三") =
      (WxResponse.failure "评论内容不能为空", [UIEffect.click]) ∧
    UIEffect.click ∈ (momentComment
      ⟨true, true, true, true, true, ⟨true, true, true, true, true, true⟩⟩
      "" (some "张三")).2 := by
  exact ⟨rfl, by decide⟩

/-- C7 (amended): `MomentCommentDialog.send` rejects empty content with a
failure before ANY input interaction (no click, key injection, or clipboard
write), for every dialog state; but `Moment.Comment` itself may already have
clicked menu or comment controls before delegating to `send`, so the flow as
a whole is not interaction-free on empty input. -/
theorem c7_empty_comment_rejection :
    (∀ env : CommentDialogEnv,
      (dialogSend env "").1.ok = false ∧ (dialogSend env "").2 = []) ∧
    (∀ (env : CommentFlowEnv) (content : String) (r : Option String),
      env.menuOpens = false → env.actionButtonFound = false → r = none →
      (momentComment env content r).1.ok = false ∧
      (momentComment env content r).2 = [UIEffect.rightClick]) := by
  constructor
  · intro env
    rw [dialogSend]
    by_cases hd : env.dialogExists
    · simp [hd, WxResponse.failure]
    · simp [Bool.not_eq_true] at hd
      simp [hd, WxResponse.failure]
  · intro env content r hm hb hr
    subst hr
    rw [momentComment]
    simp [invokeActionMenu, hm, hb, WxResponse.failure]

/-- Witness for C7 (amended) at a concrete dialog state and flow state. -/
theorem c7_empty_comment_rejection_witness :
    ((dialogSend ⟨true, true, true, true, true, true⟩ "").1.ok = false ∧
      (dialogSend ⟨true, true, true, true, true, true⟩ "").2 = []) ∧
    ((momentComment ⟨true, true, false, false, true,
        ⟨true, true, true, true, true, true⟩⟩ "hi" none).1.ok = false ∧
      (momentComment ⟨true, true, false, false, true,
        ⟨true, true, true, true, true, true⟩⟩ "hi" none).2 = [UIEffect.rightClick]) :=
  ⟨c7_empty_comment_rejection.1 ⟨true, true, true, true, true, true⟩,
    c7_empty_comment_rejection.2
      ⟨true, true, false, false, true, ⟨true, true, true, true, true, true⟩⟩
      "hi" none rfl rfl rfl⟩

/-! ## `LockManager` (src/wxauto4/utils/lock.py)

`acquire` enters `process_lock` then `thread_lock` and releases in reverse;
`acquire_async` first enters the asyncio lock.  The locks are embedded as an
interleaved transition system over `n` callers (threads, tasks or processes):
each caller walks its acquisition program one atomic step at a time, an
acquisition step is enabled only while the lock is unheld, and the scheduler
may pick any enabled caller at each step.  `kind i = true` marks caller `i`
as a cooperative-async caller (`acquire_async` / async `uilock` wrapper);
`kind i = false` is the synchronous path (`acquire` / sync `uilock`).
Callers here are non-nested (each performs one protected section); the
re-entrant RLock tier therefore behaves as a plain mutex (see the C3
development for nesting). -/

inductive LPc where
  | idle
  | waitAsync
  | waitProc
  | waitThread
  | crit
  | relProc
  | relAsync
  | done
deriving DecidableEq, Repr

structure LState (n : Nat) where
  pc : Fin n → LPc
  procHolder : Option (Fin n)
  threadHolder : Option (Fin n)
  asyncHolder : Option (Fin n)

def LInit (n : Nat) : LState n := ⟨fun _ => LPc.idle, none, none, none⟩

/-- One atomic step of one caller. -/
inductive LStep {n : Nat} (kind : Fin n → Bool) : LState n → LState n → Prop where
  | startSync (s : LState n) (i : Fin n) (hk : kind i = false) (h : s.pc i = LPc.idle) :
      LStep kind s { s with pc := Function.update s.pc i LPc.waitProc }
  | startAsync (s : LState n) (i : Fin n) (hk : kind i = true) (h : s.pc i = LPc.idle) :
      LStep kind s { s with pc := Function.update s.pc i LPc.waitAsync }
  | acqAsync (s : LState n) (i : Fin n) (h : s.pc i = LPc.waitAsync)
      (hfree : s.asyncHolder = none) :
      LStep kind s { s with pc := Function.update s.pc i LPc.waitProc, asyncHolder := some i }
  | acqProc (s : LState n) (i : Fin n) (h : s.pc i = LPc.waitProc)
      (hfree : s.procHolder = none) :
      LStep kind s { s with pc := Function.update s.pc i LPc.waitThread, procHolder := some i }
  | acqThread (s : LState n) (i : Fin n) (h : s.pc i = LPc.waitThread)
      (hfree : s.threadHolder = none) :
      LStep kind s { s with pc := Function.update s.pc i LPc.crit, threadHolder := some i }
  | relThread (s : LState n) (i : Fin n) (h : s.pc i = LPc.crit) :
      LStep kind s { s with pc := Function.update s.pc i LPc.relProc, threadHolder := none }
  | relProcSync (s : LState n) (i : Fin n) (hk : kind i = false) (h : s.pc i = LPc.relProc) :
      LStep kind s { s with pc := Function.update s.pc i LPc.done, procHolder := none }
  | relProcAsync (s : LState n) (i : Fin n) (hk : kind i = true) (h : s.pc i = LPc.relProc) :
      LStep kind s { s with pc := Function.update s.pc i LPc.relAsync, procHolder := none }
  | relAsyncStep (s : LState n) (i : Fin n) (hk : kind i = true) (h : s.pc i = LPc.relAsync) :
      LStep kind s { s with pc := Function.update s.pc i LPc.done, asyncHolder := none }

def LReachable {n : Nat} (kind : Fin n → Bool) : LState n → Prop :=
  Relation.ReflTransGen (LStep kind) (LInit n)

/-- Program points at which a caller holds `process_lock`. -/
def holdsProc (p : LPc) : Prop :=
  p = LPc.waitThread ∨ p = LPc.crit ∨ p = LPc.relProc

instance (p : LPc) : Decidable (holdsProc p) := by
  unfold holdsProc
  infer_instance

/-- The process-lock ownership invariant: any caller past the `process_lock`
acquisition and before its release is the recorded holder. -/
def LInv {n : Nat} (s : LState n) : Prop :=
  ∀ i : Fin n, holdsProc (s.pc i) → s.procHolder = some i

theorem LInv_init (n : Nat) : LInv (LInit n) := by
  intro i h
  simp [LInit, holdsProc] at h

theorem LInv_step {n : Nat} {kind : Fin n → Bool} {s s2 : LState n}
    (hinv : LInv s) (hstep : LStep kind s s2) : LInv s2 := by
  cases hstep with
  | startSync i hk h =>
    intro j hj
    dsimp only at hj ⊢
    by_cases hij : j = i
    · subst hij
      rw [Function.update_same] at hj
      simp [holdsProc] at hj
    · rw [Function.update_noteq hij] at hj
      exact hinv j hj
  | startAsync i hk h =>
    intro j hj
    dsimp only at hj ⊢
    by_cases hij : j = i
    · subst hij
      rw [Function.update_same] at hj
      simp [holdsProc] at hj
    · rw [Function.update_noteq hij] at hj
      exact hinv j hj
  | acqAsync i h hfree =>
    intro j hj
    dsimp only at hj ⊢
    by_cases hij : j = i
    · subst hij
      rw [Function.update_same] at hj
      simp [holdsProc] at hj
    · rw [Function.update_noteq hij] at hj
      exact hinv j hj
  | acqProc i h hfree =>
    intro j hj
    dsimp only at hj ⊢
    by_cases hij : j = i
    · subst hij
      rfl
    · rw [Function.update_noteq hij] at hj
      have hji := hinv j hj
      rw [hfree] at hji
      exact absurd hji (by simp)
  | acqThread i h hfree =>
    intro j hj
    dsimp only at hj ⊢
    by_cases hij : j = i
    · subst hij
      exact hinv j (by rw [h]; simp [holdsProc])
    · rw [Function.update_noteq hij] at hj
      exact hinv j hj
  | relThread i h =>
    intro j hj
    dsimp only at hj ⊢
    by_cases hij : j = i
    · subst hij
      exact hinv j (by rw [h]; simp [holdsProc])
    · rw [Function.update_noteq hij] at hj
      exact hinv j hj
  | relProcSync i hk h =>
    intro j hj
    dsimp only at hj ⊢
    by_cases hij : j = i
    · subst hij
      rw [Function.update_same] at hj
      simp [holdsProc] at hj
    · rw [Function.update_noteq hij] at hj
      have hji := hinv j hj
      have hii := hinv i (by rw [h]; simp [holdsProc])
      rw [hii] at hji
      exact absurd (by simpa using hji.symm) hij
  | relProcAsync i hk h =>
    intro j hj
    dsimp only at hj ⊢
    by_cases hij : j = i
    · subst hij
      rw [Function.update_same] at hj
      simp [holdsProc] at hj
    · rw [Function.update_noteq hij] at hj
      have hji := hinv j hj
      have hii := hinv i (by rw [h]; simp [holdsProc])
      rw [hii] at hji
      exact absurd (by simpa using hji.symm) hij
  | relAsyncStep i hk h =>
    intro j hj
    dsimp only at hj ⊢
    by_cases hij : j = i
    · subst hij
      rw [Function.update_same] at hj
      simp [holdsProc] at hj
    · rw [Function.update_noteq hij] at hj
      exact hinv j hj

theorem LInv_reachable {n : Nat} {kind : Fin n → Bool} {s : LState n}
    (h : LReachable kind s) : LInv s := by
  induction h with
  | refl => exact LInv_init n
  | tail hr hstep ih => exact LInv_step ih hstep

/-- The shared entry/exit counter of the claim: how many callers are inside a
protected section right now. -/
def sectionCount {n : Nat} (s : LState n) : Nat :=
  (Finset.univ.filter (fun i : Fin n => s.pc i = LPc.crit)).card

/-- C1: in the interleaved lock model, every caller — synchronous or
cooperative-async, any mix — must hold `process_lock` while inside its
protected section, so in every reachable state at most one caller is inside:
the shared entry/exit counter never exceeds 1. -/
theorem c1_mutual_exclusion (n : Nat) (kind : Fin n → Bool) (s : LState n)
    (hr : LReachable kind s) : sectionCount s ≤ 1 := by
  have hinv := LInv_reachable hr
  rw [sectionCount]
  apply Finset.card_le_one.mpr
  intro i hi j hj
  simp only [Finset.mem_filter] at hi hj
  have h1 := hinv i (by rw [hi.2]; simp [holdsProc])
  have h2 := hinv j (by rw [hj.2]; simp [holdsProc])
  rw [h1] at h2
  exact Option.some_inj.mp h2

/-- A reachable state of the two-caller system with caller 0 inside the
protected section. -/
def c1WitnessState : LState 2 :=
  ⟨Function.update (Function.update (Function.update (fun _ => LPc.idle) 0 LPc.waitProc)
      0 LPc.waitThread) 0 LPc.crit, some 0, some 0, none⟩

/-- Witness for C1: the state with one caller in its critical section is
reachable, its counter is exactly 1, and the theorem bounds it by 1. -/
theorem c1_mutual_exclusion_witness :
    LReachable (fun _ : Fin 2 => false) c1WitnessState ∧
    sectionCount c1WitnessState = 1 ∧ sectionCount c1WitnessState ≤ 1 := by
  have h0 : LReachable (fun _ : Fin 2 => false) (LInit 2) := Relation.ReflTransGen.refl
  have h1 := Relation.ReflTransGen.tail h0 (LStep.startSync (LInit 2) 0 rfl rfl)
  have h2 := Relation.ReflTransGen.tail h1 (LStep.acqProc _ 0 rfl rfl)
  have h3 := Relation.ReflTransGen.tail h2 (LStep.acqThread _ 0 rfl rfl)
  have hreach : LReachable (fun _ : Fin 2 => false) c1WitnessState := h3
  exact ⟨hreach, by decide, c1_mutual_exclusion 2 (fun _ => false) c1WitnessState hreach⟩

/-! ## Nested `LockManager.acquire` in one thread (C3)

The repository itself nests the lock: `HumanMessage.forward` and
`HumanMessage.quote` are `@uilock`-decorated and call the `@uilock`-decorated
`select_option` (src/wxauto4/msgs/base.py), so one thread re-enters
`LockManager.acquire`.  `process_lock` is a `multiprocessing.Lock()` — NOT
re-entrant: a second acquire by the same holder blocks.  `thread_lock` is an
`RLock`, re-entrant for its owning thread (`threadCount` below).  The model
is the single-thread nested program; no other caller exists, so nothing can
ever release the held process lock. -/

inductive NPc where
  | start
  | waitProc1
  | waitThread1
  | outer
  | waitProc2
  | waitThread2
  | inner
  | relProcInner
  | outerAgain
  | relProcOuter
  | done
deriving DecidableEq, Repr

structure NState where
  pc : NPc
  procHeld : Bool
  threadCount : Nat
deriving DecidableEq, Repr

def NInit : NState := ⟨NPc.start, false, 0⟩

inductive NStep : NState → NState → Prop where
  | begin1 (s : NState) (h : s.pc = NPc.start) : NStep s { s with pc := NPc.waitProc1 }
  | acqProc1 (s : NState) (h : s.pc = NPc.waitProc1) (hfree : s.procHeld = false) :
      NStep s { s with pc := NPc.waitThread1, procHeld := true }
  | acqThread1 (s : NState) (h : s.pc = NPc.waitThread1) :
      NStep s { s with pc := NPc.outer, threadCount := s.threadCount + 1 }
  | begin2 (s : NState) (h : s.pc = NPc.outer) : NStep s { s with pc := NPc.waitProc2 }
  | acqProc2 (s : NState) (h : s.pc = NPc.waitProc2) (hfree : s.procHeld = false) :
      NStep s { s with pc := NPc.waitThread2, procHeld := true }
  | acqThread2 (s : NState) (h : s.pc = NPc.waitThread2) :
      NStep s { s with pc := NPc.inner, threadCount := s.threadCount + 1 }
  | relThreadInner (s : NState) (h : s.pc = NPc.inner) :
      NStep s { s with pc := NPc.relProcInner, threadCount := s.threadCount - 1 }
  | relProcInner (s : NState) (h : s.pc = NPc.relProcInner) :
      NStep s { s with pc := NPc.outerAgain, procHeld := false }
  | relThreadOuter (s : NState) (h : s.pc = NPc.outerAgain) :
      NStep s { s with pc := NPc.relProcOuter, threadCount := s.threadCount - 1 }
  | relProcOuter (s : NState) (h : s.pc = NPc.relProcOuter) :
      NStep s { s with pc := NPc.done, procHeld := false }

/-- C3: the thread that is already inside the protected section and calls
`acquire` again reaches the state waiting on the (non-re-entrant) process
lock it itself holds; that state is reachable, has NO outgoing step, and the
nested protected section is never entered — the nested acquire blocks
forever, contradicting the claimed same-thread re-entrancy. -/
theorem c3_nested_acquire_deadlock :
    Relation.ReflTransGen NStep NInit ⟨NPc.waitProc2, true, 1⟩ ∧
    (∀ s2 : NState, ¬NStep ⟨NPc.waitProc2, true, 1⟩ s2) ∧
    (∀ s2 : NState, Relation.ReflTransGen NStep ⟨NPc.waitProc2, true, 1⟩ s2 →
      s2.pc ≠ NPc.inner) := by
  have hnostep : ∀ s2 : NState, ¬NStep ⟨NPc.waitProc2, true, 1⟩ s2 := by
    intro s2 hstep
    cases hstep <;> simp_all
  refine ⟨?_, hnostep, ?_⟩
  · have h0 : Relation.ReflTransGen NStep NInit NInit := Relation.ReflTransGen.refl
    have h1 := Relation.ReflTransGen.tail h0 (NStep.begin1 NInit rfl)
    have h2 := Relation.ReflTransGen.tail h1 (NStep.acqProc1 _ rfl rfl)
    have h3 := Relation.ReflTransGen.tail h2 (NStep.acqThread1 _ rfl)
    have h4 := Relation.ReflTransGen.tail h3 (NStep.begin2 _ rfl)
    exact h4
  · intro s2 hr
    have hD : s2 = ⟨NPc.waitProc2, true, 1⟩ := by
      induction hr with
      | refl => rfl
      | tail hr2 hstep ih =>
        rw [ih] at hstep
        exact absurd hstep (hnostep _)
    rw [hD]
    simp

/-- Witness for C3: the deadlocked waiting state itself never reaches the
nested critical section (instantiating the theorem at the stuck state). -/
theorem c3_nested_acquire_deadlock_witness :
    (⟨NPc.waitProc2, true, 1⟩ : NState).pc ≠ NPc.inner ∧
    ¬NStep ⟨NPc.waitProc2, true, 1⟩ ⟨NPc.waitThread2, true, 1⟩ :=
  ⟨c3_nested_acquire_deadlock.2.2 ⟨NPc.waitProc2, true, 1⟩ Relation.ReflTransGen.refl,
    c3_nested_acquire_deadlock.2.1 ⟨NPc.waitThread2, true, 1⟩⟩

end Wxauto4
